import Mathlib

/-!
Shallow embedding of the secret-mcp tool server
(`src/mcp-server/dist/index.js`) and of the data contract it serves.

The SQLite table `secrets` is modelled as a list of `SecretRecord` in rowid
(insertion) order.  The SQL fragments executed by the server are modelled by
their documented SQLite semantics:

* `LOWER(x)` lowercases the ASCII letters of `x` only (`lowerL`), while the
  JavaScript `toLowerCase()` applied to the query performs the Unicode simple
  lowercase mapping; the two are kept as distinct functions (`lowerL` versus
  `jsToLower`), because they genuinely disagree outside ASCII — a non-ASCII
  uppercase query is lowered in the pattern but not in the column, so it
  matches nothing.
* `x LIKE pat` is wildcard matching where `%` matches any run of characters
  and `_` matches exactly one character; both sides are already lowercased by
  the server, so the ASCII case folding that `LIKE` itself performs is the
  identity here.
* `ORDER BY name` sorts ascending by the `name` column under the default
  BINARY collation (code-point order); ties are left unspecified by SQLite and
  are resolved here by a stable insertion sort.
* a `SELECT` statement never modifies the database, so the statement helpers
  thread the store state through unchanged.

The filesystem effects of `write_env` (`fs.existsSync` / `fs.mkdirSync
{recursive}` / `fs.writeFileSync {mode: 0o600}`) are modelled by an explicit
`FS` state.  Following the documented Node/POSIX semantics, the `mode` option
of `writeFileSync` is applied only when the file is created (masked by the
process umask, `mode & ~umask`); a pre-existing file keeps its permission
bits and only its content is replaced.
-/

set_option maxRecDepth 10000

namespace SecretMcp

deriving instance DecidableEq for Except

/-- Record of the `secrets` table (columns `id, name, description, value,
created_at, updated_at`); `description` is nullable. -/
structure SecretRecord where
  id : String
  name : String
  description : Option String
  value : String
  created_at : Nat
  updated_at : Nat
deriving DecidableEq

/-- The `secrets` table in rowid (insertion) order. -/
abbrev Store := List SecretRecord

/-- The double-quote character. -/
def dquote : Char := Char.ofNat 34

/-- The single-quote character. -/
def squote : Char := Char.ofNat 39

/-- ASCII lowercasing of a character list: SQLite `LOWER`, and the ASCII
fragment of JavaScript `toLowerCase()`. -/
def lowerL (cs : List Char) : List Char := cs.map Char.toLower

/-- JavaScript `String.prototype.toLowerCase` on one character: the Unicode
simple lowercase mapping, embedded here on the ASCII range (U+0041–U+005A →
+32) and the Latin-1 range (U+00C0–U+00DE → +32, skipping the multiplication
sign U+00D7).  Characters outside these two ranges are left unchanged by the
model; the theorems below depend on its values only inside them. -/
def jsToLower (c : Char) : Char :=
  if 65 ≤ c.toNat ∧ c.toNat ≤ 90 then Char.ofNat (c.toNat + 32)
  else if 192 ≤ c.toNat ∧ c.toNat ≤ 222 ∧ c.toNat ≠ 215 then Char.ofNat (c.toNat + 32)
  else c

/-- JavaScript `toLowerCase()` over a character list. -/
def jsLowerL (cs : List Char) : List Char := cs.map jsToLower

/-- Is every character of the string ASCII? -/
def allAscii (q : String) : Bool := q.data.all (fun c => c.toNat ≤ 127)

/-- All suffixes of a character list, longest first (the last one is `[]`). -/
def tailsL : List Char → List (List Char)
  | [] => [[]]
  | c :: cs => (c :: cs) :: tailsL cs

/-- Does `hay` start with `needle`? -/
def startsWithL : List Char → List Char → Bool
  | [], _ => true
  | _ :: _, [] => false
  | c :: p, d :: s => c == d && startsWithL p s

/-- Does `hay` contain `needle` as a contiguous substring? -/
def hasSub (needle hay : List Char) : Bool :=
  (tailsL hay).any (fun t => startsWithL needle t)

/-- SQLite `LIKE` matching (no ESCAPE clause): `%` matches any run of
characters, `_` matches exactly one character, anything else matches itself.
Both sides are produced lowercased by the server, so the ASCII case folding
`LIKE` performs on its own is the identity on them. -/
def likeMatch : List Char → List Char → Bool
  | [], s => s.isEmpty
  | c :: p, s =>
    if c = '%' then
      (tailsL s).any (fun t => likeMatch p t)
    else
      match s with
      | [] => false
      | d :: s' => (if c = '_' then true else c == d) && likeMatch p s'

/-- Code-point lexicographic order on character lists: SQLite BINARY
collation on (UTF-8) strings. -/
def charListLe : List Char → List Char → Bool
  | [], _ => true
  | _ :: _, [] => false
  | c :: cs, d :: ds => if c = d then charListLe cs ds else decide (c < d)

/-- Comparison used by `ORDER BY name` on projected rows. -/
def pairLe (a b : String × Option String) : Bool := charListLe a.1.data b.1.data

/-- Insert into a sorted list of projected rows, keeping earlier equal keys
first (stable). -/
def insertSorted (a : String × Option String) :
    List (String × Option String) → List (String × Option String)
  | [] => [a]
  | b :: l => if pairLe a b then a :: b :: l else b :: insertSorted a l

/-- Stable insertion sort by `name`, modelling `ORDER BY name`. -/
def sortByName (l : List (String × Option String)) : List (String × Option String) :=
  l.foldr insertSorted []

/-- Projection `SELECT name, description`. -/
def projRec (r : SecretRecord) : String × Option String := (r.name, r.description)

/-- The WHERE clause of the search statement:
`LOWER(name) LIKE ? OR LOWER(COALESCE(description, '')) LIKE ?`. -/
def matchesRow (pattern : List Char) (r : SecretRecord) : Bool :=
  likeMatch pattern (lowerL r.name.data) ||
    likeMatch pattern (lowerL ((r.description.getD "").data))

/-- `searchSecrets(db, query)` from `index.js`: builds the pattern
`%${query.toLowerCase()}%` and runs
`SELECT name, description FROM secrets WHERE LOWER(name) LIKE ? OR
LOWER(COALESCE(description, '')) LIKE ? ORDER BY name`.
The second component is the store after the statement ran (a `SELECT`
leaves it unchanged). -/
def searchSecrets (db : Store) (query : String) : List (String × Option String) × Store :=
  let pattern := '%' :: (jsLowerL query.data ++ ['%'])
  (sortByName ((db.filter (matchesRow pattern)).map projRec), db)

/-- One execution of the prepared statement
`SELECT name, value FROM secrets WHERE name = ?` followed by `.get(key)`:
the first row whose `name` equals `key` exactly (case-sensitive), if any.
The second component is the store after the statement ran. -/
def stmtGetByName (db : Store) (key : String) : Option (String × String) × Store :=
  ((db.find? (fun r => r.name == key)).map (fun r => (r.name, r.value)), db)

/-- JavaScript `Map.prototype.set`: update the value in place if the key is
present (map keys are unique, so the first hit is the only one), otherwise
append the new entry at the end (insertion order preserved). -/
def mapSet : List (String × String) → String → String → List (String × String)
  | [], k, v => [(k, v)]
  | e :: m, k, v => if e.1 == k then (k, v) :: m else e :: mapSet m k v

/-- JavaScript `Map.prototype.get`. -/
def mapGet (m : List (String × String)) (k : String) : Option String :=
  (m.find? (fun e => e.1 == k)).map (fun e => e.2)

/-- The lookup loop of `writeEnvFile`: for each key in order, look it up and
either record `found.set(row.name, row.value)` or `missing.push(key)`,
threading the store through each statement execution. -/
def collectLoop (db : Store) (found : List (String × String)) (missing : List String) :
    List String → List (String × String) × List String × Store
  | [] => (found, missing, db)
  | k :: ks =>
    match stmtGetByName db k with
    | (some nv, db') => collectLoop db' (mapSet found nv.1 nv.2) missing ks
    | (none, db') => collectLoop db' found (missing ++ [k]) ks

/-- The escaping condition of `writeEnvFile`:
`value.includes(" ") || value.includes('"') || value.includes("'") ||
value.includes("\n")`. -/
def needsQuote (v : String) : Bool :=
  v.data.any (fun c => c == ' ' || c == dquote || c == squote || c == '\n')

/-- `value.replace(/"/g, '\\"')`: each double quote becomes backslash,
double quote. -/
def escapeQuotes : List Char → List Char
  | [] => []
  | c :: cs =>
    if c = dquote then '\\' :: dquote :: escapeQuotes cs
    else c :: escapeQuotes cs

/-- One emitted `.env` line (with its trailing newline) for a found key. -/
def envLine (k v : String) : String :=
  if needsQuote v then k ++ "=\"" ++ String.mk (escapeQuotes v.data) ++ "\"\n"
  else k ++ "=" ++ v ++ "\n"

/-- The content-building loop of `writeEnvFile`: iterate the original `keys`
sequence and append a line for each key with a found value. -/
def buildContent (found : List (String × String)) (keys : List String) : String :=
  keys.foldl (fun acc k =>
    match mapGet found k with
    | some v => acc ++ envLine k v
    | none => acc) ""

/-- Node `path.isAbsolute` (POSIX): nonempty and starting with `/`. -/
def isAbsolute (p : String) : Bool :=
  match p.data with
  | [] => false
  | c :: _ => c == '/'

/-- Node `path.dirname` (POSIX): strip any trailing slashes, then strip the
last component and the slash before it. -/
def dirname (p : String) : String :=
  let cs := p.data
  let trimmed := cs.reverse.dropWhile (fun c => c == '/')
  let rest := trimmed.dropWhile (fun c => !(c == '/'))
  match rest with
  | [] =>
    match cs with
    | c :: _ => if c = '/' then "/" else "."
    | [] => "."
  | _ :: tailRest =>
    if tailRest = [] then "/"
    else if tailRest = ['/'] then "//"
    else String.mk tailRest.reverse

/-- Iterated `dirname` chain with explicit fuel (the `dirname` of a path is
never longer than the path, so the path length is enough fuel). -/
def parentChainFuel : Nat → String → List String
  | 0, p => [p]
  | n + 1, p =>
    let d := dirname p
    if d = p then [p] else p :: parentChainFuel n d

/-- The directory together with all its ancestors. -/
def parentChain (p : String) : List String := parentChainFuel p.data.length p

/-- Bitwise and-not on naturals, computed bit by bit with explicit fuel
(enough fuel once `a < 2 ^ n`). -/
def ldiffFuel : Nat → Nat → Nat → Nat
  | 0, _, _ => 0
  | n + 1, a, b =>
    (if a % 2 = 1 ∧ b % 2 = 0 then 1 else 0) + 2 * ldiffFuel n (a / 2) (b / 2)

/-- Bitwise `a & ~b`, as POSIX applies the umask to a creation mode. -/
def bitLdiff (a b : Nat) : Nat := ldiffFuel a a b

/-- File payload: content plus POSIX permission bits. -/
structure FileData where
  content : String
  mode : Nat
deriving DecidableEq

/-- Filesystem state: existing directories, files keyed by absolute path, and
the process umask. -/
structure FS where
  dirs : List String
  files : List (String × FileData)
  umask : Nat
deriving DecidableEq

/-- Node `fs.existsSync` restricted to the directory namespace. -/
def dirExists (fs : FS) (d : String) : Bool := fs.dirs.contains d

/-- Node `fs.mkdirSync(dir, { recursive: true })`: the directory and all its
ancestors exist afterwards. -/
def mkdirRecursive (fs : FS) (d : String) : FS :=
  { fs with dirs := fs.dirs ++ parentChain d }

/-- Look a file up by path. -/
def lookupFile (fs : FS) (p : String) : Option FileData :=
  (fs.files.find? (fun e => e.1 == p)).map (fun e => e.2)

/-- Replace the content of an existing file, keeping its permission bits. -/
def setFileContent (files : List (String × FileData)) (p : String) (c : String) :
    List (String × FileData) :=
  files.map (fun e => if e.1 == p then (p, ⟨c, e.2.mode⟩) else e)

/-- Node `fs.writeFileSync(path, content, { mode })` (flag `w`): truncate a
pre-existing file keeping its permission bits, or create the file with
permission bits `mode & ~umask`. -/
def writeFileSync (fs : FS) (p : String) (content : String) (mode : Nat) : FS :=
  match lookupFile fs p with
  | some _ => { fs with files := setFileContent fs.files p content }
  | none => { fs with files := fs.files ++ [(p, ⟨content, bitLdiff mode fs.umask⟩)] }

/-- Structured result of `writeEnvFile`. -/
structure WriteEnvResult where
  success : Bool
  written : Nat
  missing : List String
deriving DecidableEq

/-- `writeEnvFile(db, keys, envPath)` from `index.js`: reject non-absolute
paths, look every key up, build the `.env` content, ensure the parent
directory exists, write the file with `mode: 0o600`, and return
`{ success: true, written: found.size, missing }`.  The result carries the
final filesystem and store states. -/
def writeEnvFile (db : Store) (keys : List String) (envPath : String) (fs : FS) :
    Except String WriteEnvResult × FS × Store :=
  if isAbsolute envPath = false then
    (Except.error "Path must be absolute", fs, db)
  else
    match collectLoop db [] [] keys with
    | (found, missing, db') =>
      let content := buildContent found keys
      let dir := dirname envPath
      let fs1 := if dirExists fs dir then fs else mkdirRecursive fs dir
      let fs2 := writeFileSync fs1 envPath content 384
      (Except.ok ⟨true, found.length, missing⟩, fs2, db')

/-- One inbound `tools/call` request: the two known operations with their
parsed arguments, or any other operation name. -/
inductive ToolCall where
  | search (query : String)
  | writeEnv (keys : List String) (path : String)
  | unknown (name : String)

/-- The text content of a tool response together with its `isError` flag. -/
structure Response where
  text : String
  isError : Bool
deriving DecidableEq

/-- Rendering of one search row, modelling `JSON.stringify` up to whitespace
and JSON string escaping (a null description renders as `null`). -/
def renderPair (e : String × Option String) : String :=
  "\x7b\"name\":\"" ++ e.1 ++ "\",\"description\":" ++
    (match e.2 with
     | some d => "\"" ++ d ++ "\""
     | none => "null") ++ "\x7d"

/-- Rendering of the search result array. -/
def renderResults (l : List (String × Option String)) : String :=
  "[" ++ String.intercalate "," (l.map renderPair) ++ "]"

/-- The success message of `write_env`:
`Successfully wrote N secret(s) to <path>`, plus a `Missing secrets` line
when `missing` is nonempty. -/
def writeMessage (res : WriteEnvResult) (envPath : String) : String :=
  let base := "Successfully wrote " ++ toString res.written ++ " secret(s) to " ++ envPath
  if res.missing.length > 0 then
    base ++ "\nMissing secrets (not found): " ++ String.intercalate ", " res.missing
  else base

/-- The `CallToolRequestSchema` handler: dispatch on the operation name; any
unknown name throws `Unknown tool: ...`; every throw inside the dispatch is
caught and turned into an error-flagged text response `Error: <message>`. -/
def handleRequest (db : Store) (fs : FS) : ToolCall → Response × FS × Store
  | ToolCall.search q =>
    match searchSecrets db q with
    | (results, db') => (⟨renderResults results, false⟩, fs, db')
  | ToolCall.writeEnv keys p =>
    match writeEnvFile db keys p fs with
    | (Except.ok res, fs', db') => (⟨writeMessage res p, false⟩, fs', db')
    | (Except.error msg, fs', db') => (⟨"Error: " ++ msg, true⟩, fs', db')
  | ToolCall.unknown n => (⟨"Error: Unknown tool: " ++ n, true⟩, fs, db)

/-- The serving loop: requests are processed one at a time, each against the
states the previous one left behind; every request gets a response. -/
def serve (db : Store) (fs : FS) : List ToolCall → List Response
  | [] => []
  | req :: rest =>
    match handleRequest db fs req with
    | (resp, fs', db') => resp :: serve db' fs' rest

/-- Specification-side predicate (§4.1 of the spec): case-insensitive
substring match of the query against `name` or `description`, an absent
description being treated as the empty string. -/
def specMatch (q : String) (r : SecretRecord) : Bool :=
  hasSub (lowerL q.data) (lowerL r.name.data) ||
    hasSub (lowerL q.data) (lowerL ((r.description.getD "").data))

/-- Specification-side search result: the matching records projected to
`(name, description)` and ordered by `name` ascending. -/
def specSearch (db : Store) (q : String) : List (String × Option String) :=
  sortByName ((db.filter (specMatch q)).map projRec)

/-- The value stored under an exact name, if any (first row in rowid order). -/
def valueOf (db : Store) (k : String) : Option String :=
  (db.find? (fun r => r.name == k)).map (fun r => r.value)

/-- Is some record stored under this exact name? -/
def foundIn (db : Store) (k : String) : Bool :=
  (db.find? (fun r => r.name == k)).isSome

/-- Specification-side escaping: every literal double quote of the value is
replaced by backslash, double quote. -/
def specEscape (cs : List Char) : List Char :=
  cs.foldr (fun c acc => if c = dquote then '\\' :: dquote :: acc else c :: acc) []

/-- Specification-side line format (§4.3 step 3): quoted with escaped inner
quotes when the value contains a space, a double quote, a single quote or a
newline; unquoted otherwise. -/
def specLine (k v : String) : String :=
  if [' ', dquote, squote, '\n'].any (fun c => decide (c ∈ v.data)) then
    k ++ "=\"" ++ String.mk (specEscape v.data) ++ "\"\n"
  else
    k ++ "=" ++ v ++ "\n"

/-- Specification-side file content: in request order, exactly one line per
occurrence of each key whose value was found, nothing for the others. -/
def specContent (db : Store) (keys : List String) : String :=
  String.join (keys.filterMap (fun k => (valueOf db k).map (fun v => specLine k v)))

/-- Does a character list avoid both SQL LIKE metacharacters? -/
def noWildL (cs : List Char) : Bool :=
  cs.all (fun c => !(c == '%' || c == '_'))

/-- Does the query avoid both SQL LIKE metacharacters? -/
def noMeta (q : String) : Bool := noWildL q.data

/-- Agreement of two stores on everything the search projection can see:
same number of records, pairwise equal names and descriptions (ids, values
and timestamps are unconstrained). -/
def AgreeMeta (db1 db2 : Store) : Prop :=
  List.Forall₂ (fun a b : SecretRecord => a.name = b.name ∧ a.description = b.description) db1 db2

/-- Relation between the two `found` maps built against value-differing
stores: same keys in the same order, values unconstrained. -/
def KeyAgree (m1 m2 : List (String × String)) : Prop :=
  List.Forall₂ (fun p q : String × String => p.1 = q.1) m1 m2

/-- The keys of a `found` map, in insertion order. -/
def keysOf (m : List (String × String)) : List String := m.map (fun e => e.1)

/-- An empty filesystem with umask 0. -/
def fsEmpty : FS := ⟨[], [], 0⟩

/-- A store holding one record named `API_KEY`. -/
def dbApiKey : Store := [⟨"1", "API_KEY", none, "v", 0, 0⟩]

/-- A store holding two records whose names and descriptions contain no SQL
LIKE metacharacter. -/
def dbTwo : Store :=
  [⟨"1", "alpha", some "first", "v1", 0, 0⟩, ⟨"2", "bx", none, "v2", 0, 0⟩]

/-- A store holding one record named `A` with value `v1`. -/
def dbValue1 : Store := [⟨"1", "A", none, "v1", 0, 0⟩]

/-- The same store as `dbValue1` except for the stored value. -/
def dbValue2 : Store := [⟨"1", "A", none, "v2", 0, 0⟩]

/-- A store holding one record named `A` with value `va`. -/
def dbA : Store := [⟨"1", "A", none, "va", 0, 0⟩]

/-- A store whose single value contains spaces and double quotes. -/
def dbQuote : Store := [⟨"1", "NAME", none, "he said \"hi\"", 0, 0⟩]

/-- A filesystem already holding `/a/.env` with permission bits `0o644`
(group and other readable). -/
def fsPre : FS := ⟨["/a"], [("/a/.env", ⟨"old", 420⟩)], 0⟩

/-- A filesystem already holding `/p/.env` with permission bits `0o664`. -/
def fsPre2 : FS := ⟨["/p"], [("/p/.env", ⟨"x", 436⟩)], 0⟩

/-- A store holding one record whose name is the non-ASCII uppercase letter
`É` (U+00C9). -/
def dbE : Store := [⟨"1", "É", none, "v", 0, 0⟩]

/-! Lemmas: `LIKE` on a pattern `%p%` with `p` free of wildcards is exactly
substring containment. -/

theorem nil_mem_tailsL (s : List Char) : [] ∈ tailsL s := by
  induction s with
  | nil => simp [tailsL]
  | cons c cs ih =>
    simp only [tailsL, List.mem_cons]
    exact Or.inr ih

theorem startsWithL_nil_left (s : List Char) : startsWithL [] s = true := rfl

theorem hasSub_nil_left (s : List Char) : hasSub [] s = true := by
  simp only [hasSub, List.any_eq_true]
  exact ⟨[], nil_mem_tailsL s, startsWithL_nil_left []⟩

theorem likeMatch_percent (s : List Char) : likeMatch ['%'] s = true := by
  have h : likeMatch ['%'] s = (tailsL s).any (fun t => likeMatch [] t) := by
    simp [likeMatch]
  rw [h]
  simp only [List.any_eq_true]
  exact ⟨[], nil_mem_tailsL s, by simp [likeMatch]⟩

theorem likeMatch_lit (p : List Char) (hp : noWildL p = true) :
    ∀ s, likeMatch (p ++ ['%']) s = startsWithL p s := by
  induction p with
  | nil =>
    intro s
    simpa [startsWithL_nil_left] using likeMatch_percent s
  | cons c p ih =>
    simp only [noWildL, List.all_cons, Bool.and_eq_true, Bool.not_eq_true',
      Bool.or_eq_false_iff, beq_eq_false_iff_ne] at hp
    have hpct : ¬ c = '%' := hp.1.1
    have hus : ¬ c = '_' := hp.1.2
    have hp' : noWildL p = true := by
      simpa [noWildL] using hp.2
    intro s
    cases s with
    | nil =>
      simp only [List.cons_append, likeMatch, if_neg hpct]
      rfl
    | cons d s' =>
      simp only [List.cons_append, likeMatch, if_neg hpct, if_neg hus, List.append_eq]
      rw [ih hp' s']
      rfl

theorem likeMatch_sub (p : List Char) (hp : noWildL p = true) (s : List Char) :
    likeMatch ('%' :: (p ++ ['%'])) s = hasSub p s := by
  have hfun : (fun t => likeMatch (p ++ ['%']) t) = fun t => startsWithL p t :=
    funext (likeMatch_lit p hp)
  simp only [likeMatch, if_pos (rfl : '%' = '%')]
  rw [hfun]
  rfl

theorem toNat_ofNat_lt (n : Nat) (h : n < 55296) : (Char.ofNat n).toNat = n := by
  unfold Char.ofNat
  rw [dif_pos (Or.inl h)]
  rfl

theorem toLower_eq_pct (c : Char) (h : Char.toLower c = '%') : c = '%' := by
  have hd : Char.toLower c =
      if c.toNat ≥ 65 ∧ c.toNat ≤ 90 then Char.ofNat (c.toNat + 32) else c := rfl
  rw [hd] at h
  by_cases hb : c.toNat ≥ 65 ∧ c.toNat ≤ 90
  · rw [if_pos hb] at h
    have h1 : (Char.ofNat (c.toNat + 32)).toNat = ('%' : Char).toNat := congrArg Char.toNat h
    rw [toNat_ofNat_lt (c.toNat + 32) (by omega)] at h1
    have h2 : ('%' : Char).toNat = 37 := rfl
    rw [h2] at h1
    omega
  · rwa [if_neg hb] at h

theorem toLower_eq_us (c : Char) (h : Char.toLower c = '_') : c = '_' := by
  have hd : Char.toLower c =
      if c.toNat ≥ 65 ∧ c.toNat ≤ 90 then Char.ofNat (c.toNat + 32) else c := rfl
  rw [hd] at h
  by_cases hb : c.toNat ≥ 65 ∧ c.toNat ≤ 90
  · rw [if_pos hb] at h
    have h1 : (Char.ofNat (c.toNat + 32)).toNat = ('_' : Char).toNat := congrArg Char.toNat h
    rw [toNat_ofNat_lt (c.toNat + 32) (by omega)] at h1
    have h2 : ('_' : Char).toNat = 95 := rfl
    rw [h2] at h1
    omega
  · rwa [if_neg hb] at h

theorem noWildL_lowerL (cs : List Char) (h : noWildL cs = true) :
    noWildL (lowerL cs) = true := by
  simp only [noWildL, lowerL, List.all_map, List.all_eq_true, Function.comp,
    Bool.not_eq_true', Bool.or_eq_false_iff, beq_eq_false_iff_ne] at h ⊢
  intro c hc
  exact ⟨fun he => (h c hc).1 (toLower_eq_pct c he),
    fun he => (h c hc).2 (toLower_eq_us c he)⟩

theorem jsToLower_ascii (c : Char) (h : c.toNat ≤ 127) : jsToLower c = Char.toLower c := by
  have hd : Char.toLower c =
      if c.toNat ≥ 65 ∧ c.toNat ≤ 90 then Char.ofNat (c.toNat + 32) else c := rfl
  unfold jsToLower
  rw [hd]
  by_cases hb : 65 ≤ c.toNat ∧ c.toNat ≤ 90
  · rw [if_pos hb, if_pos hb]
  · rw [if_neg hb, if_neg (by omega : ¬ (192 ≤ c.toNat ∧ c.toNat ≤ 222 ∧ c.toNat ≠ 215)),
      if_neg hb]

theorem jsLowerL_ascii (cs : List Char) (h : cs.all (fun c => c.toNat ≤ 127) = true) :
    jsLowerL cs = lowerL cs := by
  unfold jsLowerL lowerL
  rw [List.all_eq_true] at h
  exact List.map_congr_left (fun c hc => jsToLower_ascii c (by simpa using h c hc))

theorem searchSecrets_eq_spec (db : Store) (q : String) (hq : allAscii q = true)
    (h : noMeta q = true) :
    (searchSecrets db q).1 = specSearch db q := by
  have hjs : jsLowerL q.data = lowerL q.data := jsLowerL_ascii q.data hq
  have hw : noWildL (lowerL q.data) = true := noWildL_lowerL q.data h
  have hcongr : ∀ r ∈ db, matchesRow ('%' :: (lowerL q.data ++ ['%'])) r = specMatch q r := by
    intro r _
    unfold matchesRow specMatch
    rw [likeMatch_sub _ hw, likeMatch_sub _ hw]
  simp only [searchSecrets, hjs, specSearch]
  exact congrArg sortByName (congrArg (List.map projRec) (List.filter_congr hcongr))

/-! Lemmas: the insertion sort used to model `ORDER BY name` really sorts. -/

theorem charListLe_total : ∀ x y : List Char, charListLe x y = true ∨ charListLe y x = true
  | [], _ => Or.inl rfl
  | _ :: _, [] => Or.inr rfl
  | c :: cs, d :: ds => by
    by_cases h : c = d
    · subst h
      simp only [charListLe, if_pos rfl]
      exact charListLe_total cs ds
    · rcases lt_trichotomy c d with hlt | heq | hgt
      · left
        simp [charListLe, if_neg h, hlt]
      · exact absurd heq h
      · right
        have h' : ¬ d = c := fun he => h he.symm
        simp [charListLe, if_neg h', hgt]

theorem charListLe_trans :
    ∀ x y z : List Char, charListLe x y = true → charListLe y z = true →
      charListLe x z = true
  | [], _, _, _, _ => rfl
  | _ :: _, [], _, h1, _ => by simp [charListLe] at h1
  | _ :: _, _ :: _, [], _, h2 => by simp [charListLe] at h2
  | c :: cs, d :: ds, e :: es, h1, h2 => by
    by_cases hcd : c = d
    · subst hcd
      simp only [charListLe, if_pos rfl] at h1
      by_cases hce : c = e
      · subst hce
        simp only [charListLe, if_pos rfl] at h2 ⊢
        exact charListLe_trans cs ds es h1 h2
      · simp only [charListLe, if_neg hce] at h2 ⊢
        exact h2
    · simp only [charListLe, if_neg hcd] at h1
      have hlt : c < d := of_decide_eq_true h1
      by_cases hde : d = e
      · subst hde
        simp only [charListLe, if_neg hcd]
        exact decide_eq_true hlt
      · simp only [charListLe, if_neg hde] at h2
        have hlt2 : d < e := of_decide_eq_true h2
        have hce : c < e := lt_trans hlt hlt2
        simp only [charListLe, if_neg (ne_of_lt hce)]
        exact decide_eq_true hce

theorem pairLe_total (a b : String × Option String) :
    pairLe a b = true ∨ pairLe b a = true :=
  charListLe_total a.1.data b.1.data

theorem pairLe_trans (a b c : String × Option String)
    (h1 : pairLe a b = true) (h2 : pairLe b c = true) : pairLe a c = true :=
  charListLe_trans a.1.data b.1.data c.1.data h1 h2

theorem mem_insertSorted (a x : String × Option String) :
    ∀ l, x ∈ insertSorted a l → x = a ∨ x ∈ l := by
  intro l
  induction l with
  | nil => simp [insertSorted]
  | cons b l ih =>
    simp only [insertSorted]
    by_cases h : pairLe a b = true
    · rw [if_pos h]
      intro hx
      rcases List.mem_cons.mp hx with h1 | h1
      · exact Or.inl h1
      · exact Or.inr h1
    · rw [if_neg h]
      intro hx
      rcases List.mem_cons.mp hx with h1 | h1
      · rw [h1]
        exact Or.inr (List.mem_cons_self b l)
      · rcases ih h1 with h2 | h2
        · exact Or.inl h2
        · exact Or.inr (List.mem_cons_of_mem b h2)

theorem pairwise_insertSorted (a : String × Option String) (l : List (String × Option String))
    (h : List.Pairwise (fun x y => pairLe x y = true) l) :
    List.Pairwise (fun x y => pairLe x y = true) (insertSorted a l) := by
  induction l with
  | nil => simp [insertSorted]
  | cons b l ih =>
    rcases List.pairwise_cons.mp h with ⟨hb, hl⟩
    simp only [insertSorted]
    by_cases hab : pairLe a b = true
    · rw [if_pos hab]
      refine List.pairwise_cons.mpr ⟨?_, h⟩
      intro y hy
      rcases List.mem_cons.mp hy with h1 | h1
      · rw [h1]
        exact hab
      · exact pairLe_trans a b y hab (hb y h1)
    · rw [if_neg hab]
      refine List.pairwise_cons.mpr ⟨?_, ih hl⟩
      intro y hy
      rcases mem_insertSorted a y _ hy with h1 | h1
      · rw [h1]
        rcases pairLe_total a b with h2 | h2
        · exact absurd h2 hab
        · exact h2
      · exact hb y h1

theorem sortByName_pairwise (l : List (String × Option String)) :
    List.Pairwise (fun x y => pairLe x y = true) (sortByName l) := by
  induction l with
  | nil => simp [sortByName]
  | cons a l ih => exact pairwise_insertSorted a _ ih

theorem searchSecrets_sorted (db : Store) (q : String) :
    List.Pairwise (fun x y => pairLe x y = true) (searchSecrets db q).1 :=
  sortByName_pairwise _

/-! Lemmas: store agreement on names and descriptions is preserved by every
operation the tool server performs, which is the noninterference core. -/

theorem agree_filter_map (db1 db2 : Store) (h : AgreeMeta db1 db2)
    (f : SecretRecord → Bool) (g : SecretRecord → String × Option String)
    (hfg : ∀ a b : SecretRecord, a.name = b.name → a.description = b.description →
      f a = f b ∧ g a = g b) :
    (db1.filter f).map g = (db2.filter f).map g := by
  induction h with
  | nil => rfl
  | cons hab hrest ih =>
    rename_i a b l1 l2
    rcases hfg a b hab.1 hab.2 with ⟨hf, hg⟩
    simp only [List.filter_cons, hf]
    cases hfb : f b with
    | false => simpa using ih
    | true => simp [hg, ih]

theorem agree_search (db1 db2 : Store) (h : AgreeMeta db1 db2) (q : String) :
    (searchSecrets db1 q).1 = (searchSecrets db2 q).1 := by
  simp only [searchSecrets]
  refine congrArg sortByName (agree_filter_map db1 db2 h _ _ ?_)
  intro a b hn hd
  constructor
  · simp only [matchesRow, hn, hd]
  · simp only [projRec, hn, hd]

theorem find?_name_eq_key (db : Store) (k : String) (r : SecretRecord)
    (h : db.find? (fun r => r.name == k) = some r) : r.name = k := by
  have := List.find?_some h
  simpa using this

theorem agree_find?_isSome (k : String) :
    ∀ db1 db2 : Store, AgreeMeta db1 db2 →
      (db1.find? (fun r => r.name == k)).isSome = (db2.find? (fun r => r.name == k)).isSome := by
  intro db1 db2 h
  induction h with
  | nil => rfl
  | cons hab hrest ih =>
    rename_i a b l1 l2
    by_cases hn : a.name = k
    · rw [List.find?_cons_of_pos _ (by simp [hn]), List.find?_cons_of_pos _ (by simp [← hab.1, hn])]
      rfl
    · rw [List.find?_cons_of_neg _ (by simp [hn]), List.find?_cons_of_neg _ (by simp [← hab.1, hn])]
      exact ih

theorem keyAgree_mapSet (k v1 v2 : String) :
    ∀ m1 m2, KeyAgree m1 m2 → KeyAgree (mapSet m1 k v1) (mapSet m2 k v2) := by
  intro m1 m2 h
  induction h with
  | nil => exact List.Forall₂.cons rfl List.Forall₂.nil
  | cons hab hrest ih =>
    rename_i a b l1 l2
    by_cases hk : b.1 = k
    · have ha : a.1 = k := by rw [hab]; exact hk
      simp only [mapSet]
      rw [if_pos (by simp [ha]), if_pos (by simp [hk])]
      exact List.Forall₂.cons rfl hrest
    · have ha : ¬ a.1 = k := by rw [hab]; exact hk
      simp only [mapSet]
      rw [if_neg (by simp [ha]), if_neg (by simp [hk])]
      exact List.Forall₂.cons hab ih

theorem agree_collectLoop (db1 db2 : Store) (h : AgreeMeta db1 db2) :
    ∀ (keys : List String) (found1 found2 : List (String × String)) (missing : List String),
      KeyAgree found1 found2 →
        KeyAgree (collectLoop db1 found1 missing keys).1 (collectLoop db2 found2 missing keys).1 ∧
        (collectLoop db1 found1 missing keys).2.1 = (collectLoop db2 found2 missing keys).2.1 := by
  intro keys
  induction keys with
  | nil =>
    intro found1 found2 missing hf
    exact ⟨hf, rfl⟩
  | cons k ks ih =>
    intro found1 found2 missing hf
    have hsome := agree_find?_isSome k db1 db2 h
    cases h1 : db1.find? (fun r => r.name == k) with
    | none =>
      cases h2 : db2.find? (fun r => r.name == k) with
      | none =>
        simpa [collectLoop, stmtGetByName, h1, h2] using ih found1 found2 (missing ++ [k]) hf
      | some r2 =>
        rw [h1, h2] at hsome
        simp at hsome
    | some r1 =>
      cases h2 : db2.find? (fun r => r.name == k) with
      | none =>
        rw [h1, h2] at hsome
        simp at hsome
      | some r2 =>
        have hn1 : r1.name = k := find?_name_eq_key db1 k r1 h1
        have hn2 : r2.name = k := find?_name_eq_key db2 k r2 h2
        have hf' := keyAgree_mapSet k r1.value r2.value found1 found2 hf
        have hl := ih (mapSet found1 r1.name r1.value) (mapSet found2 r2.name r2.value) missing
          (by rw [hn1, hn2]; exact hf')
        simpa [collectLoop, stmtGetByName, h1, h2] using hl

theorem agree_writeEnv (db1 db2 : Store) (h : AgreeMeta db1 db2)
    (keys : List String) (p : String) (fs : FS) :
    (writeEnvFile db1 keys p fs).1 = (writeEnvFile db2 keys p fs).1 := by
  by_cases habs : isAbsolute p = false
  · simp [writeEnvFile, habs]
  · have habs' : isAbsolute p = true := by
      revert habs
      cases isAbsolute p <;> simp
    rcases agree_collectLoop db1 db2 h keys [] [] [] List.Forall₂.nil with ⟨hk, hm⟩
    simp only [writeEnvFile, habs']
    rcases hc1 : collectLoop db1 [] [] keys with ⟨f1, m1, d1⟩
    rcases hc2 : collectLoop db2 [] [] keys with ⟨f2, m2, d2⟩
    rw [hc1, hc2] at hk hm
    have hm' : m1 = m2 := hm
    have hk' : KeyAgree f1 f2 := hk
    simp [hk'.length_eq, hm']

/-! Lemmas: the lookup loop of `writeEnvFile` only reads the store, and its
outputs are characterised by `foundIn` and `valueOf`. -/

theorem collectLoop_cons_none (db : Store) (found : List (String × String))
    (missing : List String) (k : String) (ks : List String)
    (h : db.find? (fun r => r.name == k) = none) :
    collectLoop db found missing (k :: ks) = collectLoop db found (missing ++ [k]) ks := by
  simp [collectLoop, stmtGetByName, h]

theorem collectLoop_cons_some (db : Store) (found : List (String × String))
    (missing : List String) (k : String) (ks : List String) (r : SecretRecord)
    (h : db.find? (fun r => r.name == k) = some r) :
    collectLoop db found missing (k :: ks) =
      collectLoop db (mapSet found r.name r.value) missing ks := by
  simp [collectLoop, stmtGetByName, h]

theorem collectLoop_store (keys : List String) :
    ∀ (db : Store) (found : List (String × String)) (missing : List String),
      (collectLoop db found missing keys).2.2 = db := by
  induction keys with
  | nil => intro db found missing; rfl
  | cons k ks ih =>
    intro db found missing
    cases h : db.find? (fun r => r.name == k) with
    | none => rw [collectLoop_cons_none db found missing k ks h]; exact ih db found (missing ++ [k])
    | some r =>
      rw [collectLoop_cons_some db found missing k ks r h]
      exact ih db (mapSet found r.name r.value) missing

theorem writeEnvFile_store (db : Store) (keys : List String) (p : String) (fs : FS) :
    (writeEnvFile db keys p fs).2.2 = db := by
  by_cases habs : isAbsolute p = false
  · simp [writeEnvFile, habs]
  · have habs' : isAbsolute p = true := by
      revert habs
      cases isAbsolute p <;> simp
    have h := collectLoop_store keys db [] []
    rcases hc : collectLoop db [] [] keys with ⟨f, m, d⟩
    rw [hc] at h
    simp only [writeEnvFile, habs']
    rw [hc]
    simpa using h

theorem collectLoop_missing (keys : List String) :
    ∀ (db : Store) (found : List (String × String)) (missing : List String),
      (collectLoop db found missing keys).2.1 =
        missing ++ keys.filter (fun k => !(foundIn db k)) := by
  induction keys with
  | nil => intro db found missing; simp [collectLoop]
  | cons k ks ih =>
    intro db found missing
    cases h : db.find? (fun r => r.name == k) with
    | none =>
      have hni : foundIn db k = false := by simp [foundIn, h]
      rw [collectLoop_cons_none db found missing k ks h, ih db found (missing ++ [k])]
      simp [List.filter_cons, hni]
    | some r =>
      have hfi : foundIn db k = true := by simp [foundIn, h]
      rw [collectLoop_cons_some db found missing k ks r h,
        ih db (mapSet found r.name r.value) missing]
      simp [List.filter_cons, hfi]

theorem keysOf_mapSet (k v : String) :
    ∀ m, keysOf (mapSet m k v) = if k ∈ keysOf m then keysOf m else keysOf m ++ [k] := by
  intro m
  induction m with
  | nil => simp [mapSet, keysOf]
  | cons e m ih =>
    by_cases he : e.1 = k
    · simp [mapSet, keysOf, he]
    · have he' : ¬ k = e.1 := fun hh => he hh.symm
      have hb : (e.1 == k) = false := by simp [he]
      show keysOf (if (e.1 == k) = true then (k, v) :: m else e :: mapSet m k v) = _
      rw [hb]
      simp only [Bool.false_eq_true, if_false]
      simp only [keysOf, List.map_cons] at ih ⊢
      rw [ih]
      by_cases hm : k ∈ List.map (fun e => e.1) m
      · rw [if_pos hm, if_pos (by simp [List.mem_cons, hm])]
      · rw [if_neg hm, if_neg (by simp [List.mem_cons, he', hm])]
        simp

theorem mem_keysOf_mapSet (k v a : String) (m : List (String × String)) :
    a ∈ keysOf (mapSet m k v) ↔ a ∈ keysOf m ∨ a = k := by
  rw [keysOf_mapSet]
  by_cases hm : k ∈ keysOf m
  · rw [if_pos hm]
    constructor
    · exact Or.inl
    · rintro (h | h)
      · exact h
      · rw [h]; exact hm
  · rw [if_neg hm]
    simp [List.mem_append]

theorem nodup_keysOf_mapSet (k v : String) (m : List (String × String))
    (h : (keysOf m).Nodup) : (keysOf (mapSet m k v)).Nodup := by
  rw [keysOf_mapSet]
  by_cases hm : k ∈ keysOf m
  · rwa [if_pos hm]
  · rw [if_neg hm]
    simp [List.nodup_append, h, hm]

theorem collectLoop_keysOf (keys : List String) :
    ∀ (db : Store) (found : List (String × String)) (missing : List String),
      (keysOf found).Nodup →
        (keysOf (collectLoop db found missing keys).1).Nodup ∧
          ∀ a, a ∈ keysOf (collectLoop db found missing keys).1 ↔
            a ∈ keysOf found ∨ (a ∈ keys ∧ foundIn db a = true) := by
  induction keys with
  | nil =>
    intro db found missing hnd
    exact ⟨hnd, fun a => by simp [collectLoop]⟩
  | cons k ks ih =>
    intro db found missing hnd
    cases h : db.find? (fun r => r.name == k) with
    | none =>
      have hni : foundIn db k = false := by simp [foundIn, h]
      rw [collectLoop_cons_none db found missing k ks h]
      rcases ih db found (missing ++ [k]) hnd with ⟨h1, h2⟩
      refine ⟨h1, fun a => ?_⟩
      rw [h2 a]
      constructor
      · rintro (hf | ⟨hm, hfo⟩)
        · exact Or.inl hf
        · exact Or.inr ⟨List.mem_cons_of_mem k hm, hfo⟩
      · rintro (hf | ⟨hm, hfo⟩)
        · exact Or.inl hf
        · rcases List.mem_cons.mp hm with hm1 | hm1
          · rw [hm1] at hfo
            rw [hfo] at hni
            cases hni
          · exact Or.inr ⟨hm1, hfo⟩
    | some r =>
      have hn : r.name = k := find?_name_eq_key db k r h
      have hfi : foundIn db k = true := by simp [foundIn, h]
      rw [collectLoop_cons_some db found missing k ks r h, hn]
      rcases ih db (mapSet found k r.value) missing (nodup_keysOf_mapSet k r.value found hnd)
        with ⟨h1, h2⟩
      refine ⟨h1, fun a => ?_⟩
      rw [h2 a, mem_keysOf_mapSet]
      constructor
      · rintro ((hf | hak) | ⟨hm, hfo⟩)
        · exact Or.inl hf
        · rw [hak]
          exact Or.inr ⟨List.mem_cons_self k ks, hfi⟩
        · exact Or.inr ⟨List.mem_cons_of_mem k hm, hfo⟩
      · rintro (hf | ⟨hm, hfo⟩)
        · exact Or.inl (Or.inl hf)
        · rcases List.mem_cons.mp hm with hm1 | hm1
          · exact Or.inl (Or.inr hm1)
          · exact Or.inr ⟨hm1, hfo⟩

theorem collectLoop_written (db : Store) (keys : List String) :
    ((collectLoop db [] [] keys).1).length =
      ((keys.filter (fun k => foundIn db k)).dedup).length := by
  rcases collectLoop_keysOf keys db [] [] (by simp [keysOf]) with ⟨h1, h2⟩
  have hlen : ((collectLoop db [] [] keys).1).length =
      (keysOf (collectLoop db [] [] keys).1).length := by
    simp [keysOf]
  rw [hlen]
  have hperm : (keysOf (collectLoop db [] [] keys).1).Perm
      ((keys.filter (fun k => foundIn db k)).dedup) := by
    rw [List.perm_ext_iff_of_nodup h1 (List.nodup_dedup _)]
    intro a
    rw [List.mem_dedup, List.mem_filter, h2 a]
    simp [keysOf]
  exact hperm.length_eq

theorem mapGet_mapSet (k v a : String) :
    ∀ m, mapGet (mapSet m k v) a = if a = k then some v else mapGet m a := by
  intro m
  induction m with
  | nil =>
    by_cases h : a = k
    · simp [mapSet, mapGet, h]
    · have h' : ¬ k = a := fun hh => h hh.symm
      simp [mapSet, mapGet, h, h']
  | cons e m ih =>
    by_cases he : e.1 = k
    · by_cases ha : a = k
      · simp [mapSet, mapGet, he, ha]
      · have h1 : ¬ k = a := fun hh => ha hh.symm
        have h2 : ¬ e.1 = a := fun hh => ha (hh.symm.trans he)
        simp [mapSet, mapGet, he, ha, h1, h2]
    · by_cases ha : e.1 = a
      · have hak : ¬ a = k := fun hh => he (ha.trans hh)
        simp [mapSet, mapGet, he, ha, hak]
      · have hbk : (e.1 == k) = false := by simp [he]
        show mapGet (if (e.1 == k) = true then (k, v) :: m else e :: mapSet m k v) a = _
        rw [hbk]
        simp only [Bool.false_eq_true, if_false, mapGet]
        rw [List.find?_cons_of_neg _ (by simp [ha]), List.find?_cons_of_neg _ (by simp [ha])]
        exact ih

theorem collectLoop_mapGet (keys : List String) :
    ∀ (db : Store) (found : List (String × String)) (missing : List String) (a : String),
      mapGet ((collectLoop db found missing keys).1) a =
        if a ∈ keys ∧ foundIn db a = true then valueOf db a else mapGet found a := by
  induction keys with
  | nil => intro db found missing a; simp [collectLoop]
  | cons k ks ih =>
    intro db found missing a
    cases h : db.find? (fun r => r.name == k) with
    | none =>
      have hni : foundIn db k = false := by simp [foundIn, h]
      rw [collectLoop_cons_none db found missing k ks h, ih db found (missing ++ [k]) a]
      by_cases hc : a ∈ ks ∧ foundIn db a = true
      · rw [if_pos hc, if_pos ⟨List.mem_cons_of_mem k hc.1, hc.2⟩]
      · have hcc : ¬ (a ∈ k :: ks ∧ foundIn db a = true) := by
          rintro ⟨hm, hf⟩
          rcases List.mem_cons.mp hm with h1 | h1
          · rw [h1] at hf
            rw [hf] at hni
            cases hni
          · exact hc ⟨h1, hf⟩
        rw [if_neg hc, if_neg hcc]
    | some r =>
      have hn : r.name = k := find?_name_eq_key db k r h
      have hfi : foundIn db k = true := by simp [foundIn, h]
      have hv : valueOf db k = some r.value := by simp [valueOf, h]
      rw [collectLoop_cons_some db found missing k ks r h, hn,
        ih db (mapSet found k r.value) missing a, mapGet_mapSet]
      by_cases hak : a = k
      · subst hak
        by_cases hks : a ∈ ks ∧ foundIn db a = true
        · rw [if_pos hks, if_pos ⟨List.mem_cons_self a ks, hfi⟩]
        · rw [if_neg hks, if_pos rfl, if_pos ⟨List.mem_cons_self a ks, hfi⟩, hv]
      · have hmem : (a ∈ k :: ks ∧ foundIn db a = true) ↔ (a ∈ ks ∧ foundIn db a = true) := by
          constructor
          · rintro ⟨hm, hf⟩
            rcases List.mem_cons.mp hm with h1 | h1
            · exact absurd h1 hak
            · exact ⟨h1, hf⟩
          · rintro ⟨hm, hf⟩
            exact ⟨List.mem_cons_of_mem k hm, hf⟩
        by_cases hks : a ∈ ks ∧ foundIn db a = true
        · rw [if_pos hks, if_pos (hmem.mpr hks)]
        · rw [if_neg hks, if_neg (fun hh => hks (hmem.mp hh)), if_neg hak]

/-! Lemmas: the content built by iterating the found map equals the
specification-side `filterMap` over direct lookups. -/

theorem strFoldlAppend (l : List String) :
    ∀ a : String, l.foldl (fun r s => r ++ s) a = a ++ l.foldl (fun r s => r ++ s) "" := by
  induction l with
  | nil => intro a; simp [String.append_empty]
  | cons s l ih =>
    intro a
    simp only [List.foldl_cons]
    rw [ih (a ++ s), ih ("" ++ s), String.empty_append, String.append_assoc]

theorem join_cons (s : String) (l : List String) :
    String.join (s :: l) = s ++ String.join l := by
  simp only [String.join, List.foldl_cons]
  rw [strFoldlAppend l ("" ++ s), String.empty_append]

theorem escapeQuotes_eq_specEscape (cs : List Char) : escapeQuotes cs = specEscape cs := by
  induction cs with
  | nil => rfl
  | cons c cs ih =>
    by_cases h : c = dquote <;> simp [escapeQuotes, specEscape, List.foldr_cons, h] <;>
      simpa [specEscape] using ih

theorem needsQuote_eq (v : String) :
    needsQuote v = [' ', dquote, squote, '\n'].any (fun c => decide (c ∈ v.data)) := by
  have hiff : needsQuote v = true ↔
      ([' ', dquote, squote, '\n'].any (fun c => decide (c ∈ v.data)) = true) := by
    simp only [needsQuote, List.any_eq_true, decide_eq_true_eq, Bool.or_eq_true, beq_iff_eq]
    constructor
    · rintro ⟨c, hc, ((h | h) | h) | h⟩ <;> subst h
      · exact ⟨' ', by simp, hc⟩
      · exact ⟨dquote, by simp, hc⟩
      · exact ⟨squote, by simp, hc⟩
      · exact ⟨'\n', by simp, hc⟩
    · rintro ⟨c, hcl, hcv⟩
      simp only [List.mem_cons, List.not_mem_nil, or_false] at hcl
      rcases hcl with h | h | h | h <;> subst h
      · exact ⟨' ', hcv, by simp⟩
      · exact ⟨dquote, hcv, by simp⟩
      · exact ⟨squote, hcv, by simp⟩
      · exact ⟨'\n', hcv, by simp⟩
  cases hq : needsQuote v with
  | true => exact (hiff.mp hq).symm
  | false =>
    cases ha : [' ', dquote, squote, '\n'].any (fun c => decide (c ∈ v.data)) with
    | true =>
      rw [hiff.mpr ha] at hq
      cases hq
    | false => rfl

theorem envLine_eq_specLine (k v : String) : envLine k v = specLine k v := by
  simp only [envLine, specLine, needsQuote_eq, escapeQuotes_eq_specEscape]

theorem buildContent_eq (db : Store) (keys : List String) :
    ∀ (found : List (String × String)), (∀ a ∈ keys, mapGet found a = valueOf db a) →
      ∀ acc : String,
        keys.foldl (fun acc k =>
          match mapGet found k with
          | some v => acc ++ envLine k v
          | none => acc) acc =
        acc ++ String.join (keys.filterMap (fun k => (valueOf db k).map (fun v => specLine k v))) := by
  induction keys with
  | nil =>
    intro found _ acc
    simp [String.join, String.append_empty]
  | cons k ks ih =>
    intro found h acc
    have hk := h k (List.mem_cons_self k ks)
    have hrest : ∀ a ∈ ks, mapGet found a = valueOf db a :=
      fun a ha => h a (List.mem_cons_of_mem k ha)
    simp only [List.foldl_cons, List.filterMap_cons]
    cases hv : valueOf db k with
    | none =>
      rw [hv] at hk
      simp only [hk, Option.map_none']
      exact ih found hrest acc
    | some v =>
      rw [hv] at hk
      simp only [hk, Option.map_some']
      rw [ih found hrest (acc ++ envLine k v), join_cons, envLine_eq_specLine,
        String.append_assoc]

theorem buildContent_spec (db : Store) (keys : List String) :
    buildContent ((collectLoop db [] [] keys).1) keys = specContent db keys := by
  have hget : ∀ a ∈ keys, mapGet ((collectLoop db [] [] keys).1) a = valueOf db a := by
    intro a ha
    rw [collectLoop_mapGet]
    by_cases hf : foundIn db a = true
    · rw [if_pos ⟨ha, hf⟩]
    · rw [if_neg (fun hh => hf hh.2)]
      have hnone : db.find? (fun r => r.name == a) = none := by
        cases hfind : db.find? (fun r => r.name == a) with
        | none => rfl
        | some r => exact absurd (by simp [foundIn, hfind]) hf
      simp [mapGet, valueOf, hnone]
  have h := buildContent_eq db keys ((collectLoop db [] [] keys).1) hget ""
  simpa [buildContent, specContent, String.empty_append] using h

/-! Lemmas: filesystem effects of `writeEnvFile`. -/

theorem parentChainFuel_head (n : Nat) (p : String) : ∃ t, parentChainFuel n p = p :: t := by
  cases n with
  | zero => exact ⟨[], rfl⟩
  | succ n =>
    simp only [parentChainFuel]
    by_cases h : dirname p = p
    · rw [if_pos h]
      exact ⟨[], rfl⟩
    · rw [if_neg h]
      exact ⟨_, rfl⟩

theorem mem_parentChain_self (p : String) : p ∈ parentChain p := by
  rcases parentChainFuel_head p.data.length p with ⟨t, ht⟩
  rw [parentChain, ht]
  exact List.mem_cons_self p t

theorem mkdirRecursive_mem (fs : FS) (d : String) : d ∈ (mkdirRecursive fs d).dirs := by
  simp only [mkdirRecursive]
  exact List.mem_append.mpr (Or.inr (mem_parentChain_self d))

theorem mkdirRecursive_files (fs : FS) (d : String) : (mkdirRecursive fs d).files = fs.files :=
  rfl

theorem mkdirRecursive_umask (fs : FS) (d : String) : (mkdirRecursive fs d).umask = fs.umask :=
  rfl

theorem dirExists_mem (fs : FS) (d : String) (h : dirExists fs d = true) : d ∈ fs.dirs := by
  simpa [dirExists] using h

theorem writeFileSync_dirs (fs : FS) (p c : String) (m : Nat) :
    (writeFileSync fs p c m).dirs = fs.dirs := by
  cases h : lookupFile fs p with
  | none => simp [writeFileSync, h]
  | some fd => simp [writeFileSync, h]

theorem find?_setFileContent (p c : String) :
    ∀ files : List (String × FileData),
      (setFileContent files p c).find? (fun e => e.1 == p) =
        (files.find? (fun e => e.1 == p)).map
          (fun e => (p, FileData.mk c e.2.mode)) := by
  intro files
  induction files with
  | nil => rfl
  | cons e files ih =>
    by_cases h : e.1 = p
    · simp only [setFileContent, List.map_cons]
      rw [if_pos (by simp [h])]
      rw [List.find?_cons_of_pos _ (by simp), List.find?_cons_of_pos _ (by simp [h])]
      rfl
    · simp only [setFileContent, List.map_cons] at ih ⊢
      rw [if_neg (by simp [h])]
      rw [List.find?_cons_of_neg _ (by simp [h]), List.find?_cons_of_neg _ (by simp [h])]
      exact ih

theorem lookupFile_writeFileSync_existing (fs : FS) (p c : String) (m : Nat) (fd : FileData)
    (h : lookupFile fs p = some fd) :
    lookupFile (writeFileSync fs p c m) p = some ⟨c, fd.mode⟩ := by
  rcases hfind : fs.files.find? (fun e => e.1 == p) with _ | e
  · rw [lookupFile, hfind] at h
    cases h
  · have he : e.2 = fd := by
      rw [lookupFile, hfind] at h
      simpa using h
    simp only [writeFileSync, h]
    simp only [lookupFile, find?_setFileContent, hfind, Option.map_some', he]

theorem lookupFile_writeFileSync_new (fs : FS) (p c : String) (m : Nat)
    (h : lookupFile fs p = none) :
    lookupFile (writeFileSync fs p c m) p = some ⟨c, bitLdiff m fs.umask⟩ := by
  have hfind : fs.files.find? (fun e => e.1 == p) = none := by
    rcases hf : fs.files.find? (fun e => e.1 == p) with _ | e
    · exact hf
    · rw [lookupFile, hf] at h
      simp at h
  simp only [writeFileSync, h]
  simp only [lookupFile, List.find?_append, hfind]
  simp [List.find?]

/-! Lemmas: the bit mask applied to the creation mode. -/

theorem ldiffFuel_div2 (n a b : Nat) :
    ldiffFuel (n + 1) a b / 2 = ldiffFuel n (a / 2) (b / 2) := by
  by_cases hc : a % 2 = 1 ∧ b % 2 = 0
  · simp only [ldiffFuel, if_pos hc]
    omega
  · simp only [ldiffFuel, if_neg hc]
    omega

theorem testBit_ldiffFuel :
    ∀ (n a b i : Nat), a < 2 ^ n →
      (ldiffFuel n a b).testBit i = (a.testBit i && !(b.testBit i)) := by
  intro n
  induction n with
  | zero =>
    intro a b i h
    have ha : a = 0 := by
      have h1 : (2 : Nat) ^ 0 = 1 := rfl
      omega
    subst ha
    simp [ldiffFuel]
  | succ n ih =>
    intro a b i h
    cases i with
    | zero =>
      by_cases hc : a % 2 = 1 ∧ b % 2 = 0
      · have h1 : ldiffFuel (n + 1) a b % 2 = 1 := by
          simp only [ldiffFuel, if_pos hc]
          omega
        have hb1 : ¬ b % 2 = 1 := by omega
        simp [Nat.testBit_zero, h1, hc.1, hb1]
      · have h0 : ldiffFuel (n + 1) a b % 2 = 0 := by
          simp only [ldiffFuel, if_neg hc]
          omega
        rcases Nat.mod_two_eq_zero_or_one a with ha | ha
        · simp [Nat.testBit_zero, h0, ha]
        · have hb1 : b % 2 = 1 := by
            rcases Nat.mod_two_eq_zero_or_one b with hb | hb
            · exact absurd ⟨ha, hb⟩ hc
            · exact hb
          simp [Nat.testBit_zero, h0, ha, hb1]
    | succ i =>
      have ha2 : a / 2 < 2 ^ n := by
        rw [pow_succ] at h
        omega
      rw [Nat.testBit_succ, Nat.testBit_succ, Nat.testBit_succ, ldiffFuel_div2]
      exact ih (a / 2) (b / 2) i ha2

theorem testBit_bitLdiff (a b i : Nat) :
    (bitLdiff a b).testBit i = (a.testBit i && !(b.testBit i)) :=
  testBit_ldiffFuel a a b i (Nat.lt_two_pow a)

theorem bitLdiff_mode_low (u i : Nat) (h : i < 6) :
    (bitLdiff 384 u).testBit i = false := by
  rw [testBit_bitLdiff]
  have h384 : (384 : Nat).testBit i = false := by
    interval_cases i <;> decide
  simp [h384]

/-! Lemmas: the full postcondition of a successful `writeEnvFile`. -/

theorem writeEnvFile_post (db : Store) (keys : List String) (p : String) (fs : FS)
    (habs : isAbsolute p = true) :
    (writeEnvFile db keys p fs).1 =
        Except.ok ⟨true, ((keys.filter (fun k => foundIn db k)).dedup).length,
          keys.filter (fun k => !(foundIn db k))⟩ ∧
      dirname p ∈ (writeEnvFile db keys p fs).2.1.dirs ∧
      (∀ fd, lookupFile fs p = some fd →
        lookupFile (writeEnvFile db keys p fs).2.1 p = some ⟨specContent db keys, fd.mode⟩) ∧
      (lookupFile fs p = none →
        lookupFile (writeEnvFile db keys p fs).2.1 p =
          some ⟨specContent db keys, bitLdiff 384 fs.umask⟩) := by
  have hm := collectLoop_missing keys db [] []
  have hw := collectLoop_written db keys
  have hcont := buildContent_spec db keys
  rcases hc : collectLoop db [] [] keys with ⟨f, m, d⟩
  rw [hc] at hm hw hcont
  simp only [List.nil_append] at hm
  simp only [writeEnvFile, habs, Bool.true_eq_false, if_false, hc]
  set fs1 := if dirExists fs (dirname p) = true then fs else mkdirRecursive fs (dirname p) with hfs1
  have hdirs : dirname p ∈ fs1.dirs := by
    rw [hfs1]
    by_cases hd : dirExists fs (dirname p) = true
    · rw [if_pos hd]
      exact dirExists_mem fs (dirname p) hd
    · rw [if_neg hd]
      exact mkdirRecursive_mem fs (dirname p)
  have hlk : lookupFile fs1 p = lookupFile fs p := by
    rw [hfs1]
    by_cases hd : dirExists fs (dirname p) = true
    · rw [if_pos hd]
    · rw [if_neg hd]
      rfl
  have humask : fs1.umask = fs.umask := by
    rw [hfs1]
    by_cases hd : dirExists fs (dirname p) = true
    · rw [if_pos hd]
    · rw [if_neg hd]
      rfl
  refine ⟨?_, ?_, ?_, ?_⟩
  · simp [hw, hm]
  · rw [writeFileSync_dirs]
    exact hdirs
  · intro fd hfd
    rw [lookupFile_writeFileSync_existing fs1 p (buildContent f keys) 384 fd (hlk.trans hfd),
      hcont]
  · intro hnone
    rw [lookupFile_writeFileSync_new fs1 p (buildContent f keys) 384 (hlk.trans hnone),
      hcont, humask]

/-! Lemmas: the serving loop. -/

theorem serve_length (reqs : List ToolCall) :
    ∀ (db : Store) (fs : FS), (serve db fs reqs).length = reqs.length := by
  induction reqs with
  | nil => intro db fs; rfl
  | cons r rest ih =>
    intro db fs
    rcases h : handleRequest db fs r with ⟨resp, fs', db'⟩
    simp [serve, h, ih]

theorem searchSecrets_empty_query (db : Store) :
    (searchSecrets db "").1 = sortByName (db.map projRec) := by
  rw [searchSecrets_eq_spec db "" (by decide) (by decide)]
  unfold specSearch
  have hall : ∀ r ∈ db, specMatch "" r = true := by
    intro r _
    simp [specMatch, lowerL, hasSub_nil_left]
  rw [List.filter_congr hall, List.filter_true]

/-! The claims. -/

/-- Claim C1: no response crossing the tool boundary carries a stored value:
two stores that agree on every record's name and description, while their
values may all differ, produce the same response for every request — the
same search response for every query, and the same structured write result
for every `(keys, path, filesystem)` input. -/
theorem claim_C1_value_noninterference (db1 db2 : Store) (h : AgreeMeta db1 db2) :
    (∀ (fs : FS) (req : ToolCall),
      (handleRequest db1 fs req).1 = (handleRequest db2 fs req).1) ∧
    (∀ q : String, (searchSecrets db1 q).1 = (searchSecrets db2 q).1) ∧
    (∀ (keys : List String) (p : String) (fs : FS),
      (writeEnvFile db1 keys p fs).1 = (writeEnvFile db2 keys p fs).1) := by
  refine ⟨?_, agree_search db1 db2 h, agree_writeEnv db1 db2 h⟩
  intro fs req
  cases req with
  | search q =>
    have hs := agree_search db1 db2 h q
    rcases hs1 : searchSecrets db1 q with ⟨r1, d1⟩
    rcases hs2 : searchSecrets db2 q with ⟨r2, d2⟩
    rw [hs1, hs2] at hs
    have hr : r1 = r2 := hs
    simp [handleRequest, hs1, hs2, hr]
  | writeEnv keys p =>
    have hw := agree_writeEnv db1 db2 h keys p fs
    rcases h1 : writeEnvFile db1 keys p fs with ⟨e1, fs1, d1⟩
    rcases h2 : writeEnvFile db2 keys p fs with ⟨e2, fs2, d2⟩
    rw [h1, h2] at hw
    have he : e1 = e2 := hw
    subst he
    cases e1 with
    | ok res => simp [handleRequest, h1, h2]
    | error msg => simp [handleRequest, h1, h2]
  | unknown n => rfl

/-- Witness for C1 at a concrete pair of stores that differ only in the
stored value. -/
theorem claim_C1_value_noninterference_witness :
    (searchSecrets dbValue1 "a").1 = (searchSecrets dbValue2 "a").1 ∧
    (writeEnvFile dbValue1 ["A"] "/w/.env" fsEmpty).1 =
      (writeEnvFile dbValue2 ["A"] "/w/.env" fsEmpty).1 := by
  have hag : AgreeMeta dbValue1 dbValue2 :=
    List.Forall₂.cons ⟨rfl, rfl⟩ List.Forall₂.nil
  exact ⟨(claim_C1_value_noninterference dbValue1 dbValue2 hag).2.1 "a",
    (claim_C1_value_noninterference dbValue1 dbValue2 hag).2.2 ["A"] "/w/.env" fsEmpty⟩

/-- Counterexample to C2 as stated, on two independent inputs.  First, the
query is spliced into the LIKE pattern unescaped, so on a store whose
records contain no `%` anywhere, the query `%` matches every record although
it is a substring of none of them.  Second, the pattern is lowered by the
Unicode-aware JavaScript `toLowerCase()` while the columns are lowered by
the ASCII-only SQL `LOWER`, so the metacharacter-free query `É` (lowered to
`é` in the pattern only) matches nothing on a store holding a record named
`É`, although it is literally a substring of that name. -/
theorem claim_C2_counterexample :
    ((searchSecrets dbTwo "%").1 = [("alpha", some "first"), ("bx", none)] ∧
      specSearch dbTwo "%" = [] ∧
      (searchSecrets dbTwo "%").1 ≠ specSearch dbTwo "%") ∧
    ((searchSecrets dbE "É").1 = [] ∧
      specSearch dbE "É" = [("É", none)] ∧
      noMeta "É" = true ∧
      (searchSecrets dbE "É").1 ≠ specSearch dbE "É") :=
  ⟨⟨by decide, by decide, by decide⟩, by decide, by decide, by decide, by decide⟩

/-- Claim C2 (amended): for every ASCII query that contains neither `%` nor
`_`, `search_secrets` returns exactly the records whose name or description
(absent description read as the empty string) contains the query as a
case-insensitive substring — case-insensitivity being the ASCII folding that
`LOWER` and `LIKE` perform — projected to `(name, description)` and ordered
by `name` ascending; the result is always sorted by name; the empty query
matches every stored record; and a record named `API_KEY` matches the
queries `api`, `API` and `aPi_`. -/
theorem claim_C2_search_spec :
    (∀ (db : Store) (q : String), allAscii q = true → noMeta q = true →
      (searchSecrets db q).1 = specSearch db q) ∧
    (∀ (db : Store) (q : String),
      List.Pairwise (fun x y => pairLe x y = true) (searchSecrets db q).1) ∧
    (∀ db : Store, (searchSecrets db "").1 = sortByName (db.map projRec)) ∧
    (searchSecrets dbApiKey "api").1 = [("API_KEY", none)] ∧
    (searchSecrets dbApiKey "API").1 = [("API_KEY", none)] ∧
    (searchSecrets dbApiKey "aPi_").1 = [("API_KEY", none)] :=
  ⟨fun db q hq h => searchSecrets_eq_spec db q hq h,
    fun db q => searchSecrets_sorted db q,
    fun db => searchSecrets_empty_query db,
    by decide, by decide, by decide⟩

/-- Witness for the amended C2 at a concrete ASCII, metacharacter-free
query. -/
theorem claim_C2_search_spec_witness :
    allAscii "api" = true ∧ noMeta "api" = true ∧
    (searchSecrets dbApiKey "api").1 = specSearch dbApiKey "api" :=
  ⟨by decide, by decide, claim_C2_search_spec.1 dbApiKey "api" (by decide) (by decide)⟩

/-- Claim C3: for an absolute path, `write_env` looks every key up exactly
and case-sensitively, reports `success: true`, counts as `written` the
distinct key names that were found, and lists as `missing` the not-found
keys in request order with exactly the input's duplicates. -/
theorem claim_C3_writeEnv_result (db : Store) (keys : List String) (p : String) (fs : FS)
    (habs : isAbsolute p = true) :
    (writeEnvFile db keys p fs).1 =
      Except.ok ⟨true, ((keys.filter (fun k => foundIn db k)).dedup).length,
        keys.filter (fun k => !(foundIn db k))⟩ :=
  (writeEnvFile_post db keys p fs habs).1

/-- Witness for C3: `write_env(["A","B"])` with only `A` stored returns
`{written: 1, missing: ["B"]}`. -/
theorem claim_C3_writeEnv_result_witness :
    isAbsolute "/w/.env" = true ∧
    (writeEnvFile dbA ["A", "B"] "/w/.env" fsEmpty).1 = Except.ok ⟨true, 1, ["B"]⟩ := by
  refine ⟨by decide, ?_⟩
  have h := claim_C3_writeEnv_result dbA ["A", "B"] "/w/.env" fsEmpty (by decide)
  rw [h]
  decide

/-- Claim C4: the file content built by `write_env` is, in request order,
exactly one line per occurrence of each key whose value was found and
nothing for the others, each line being `NAME="ESCAPED"` (inner double
quotes escaped) when the value contains a space, double quote, single quote
or newline, and `NAME=VALUE` otherwise. -/
theorem claim_C4_content (db : Store) (keys : List String) (p : String) (fs : FS)
    (habs : isAbsolute p = true) :
    (lookupFile (writeEnvFile db keys p fs).2.1 p).map (fun fd => fd.content) =
      some (specContent db keys) := by
  rcases writeEnvFile_post db keys p fs habs with ⟨_, _, hex, hnew⟩
  cases hf : lookupFile fs p with
  | none =>
    rw [hnew hf]
    rfl
  | some fd =>
    rw [hex fd hf]
    rfl

/-- Witness for C4: the value `he said "hi"` under key `NAME` yields the
line `NAME="he said \"hi\""`. -/
theorem claim_C4_content_witness :
    isAbsolute "/e/.env" = true ∧
    (lookupFile (writeEnvFile dbQuote ["NAME"] "/e/.env" fsEmpty).2.1 "/e/.env").map
        (fun fd => fd.content) =
      some "NAME=\"he said \\\"hi\\\"\"\n" := by
  refine ⟨by decide, ?_⟩
  have h := claim_C4_content dbQuote ["NAME"] "/e/.env" fsEmpty (by decide)
  rw [h]
  decide

/-- Claim C5: a non-absolute path makes `write_env` fail with the message
`Path must be absolute` and leaves the filesystem and store untouched; in
particular a file absent before is absent afterwards. -/
theorem claim_C5_relative_path (db : Store) (keys : List String) (p : String) (fs : FS)
    (h : isAbsolute p = false) :
    writeEnvFile db keys p fs = (Except.error "Path must be absolute", fs, db) ∧
    handleRequest db fs (ToolCall.writeEnv keys p) =
      (⟨"Error: Path must be absolute", true⟩, fs, db) ∧
    (lookupFile fs p = none → lookupFile (writeEnvFile db keys p fs).2.1 p = none) := by
  have he : writeEnvFile db keys p fs = (Except.error "Path must be absolute", fs, db) := by
    simp [writeEnvFile, h]
  refine ⟨he, by simp [handleRequest, he], fun hn => ?_⟩
  rw [he]
  exact hn

/-- Witness for C5 at a concrete relative path. -/
theorem claim_C5_relative_path_witness :
    isAbsolute "rel/.env" = false ∧
    writeEnvFile dbA ["A"] "rel/.env" fsEmpty =
      (Except.error "Path must be absolute", fsEmpty, dbA) :=
  ⟨by decide, (claim_C5_relative_path dbA ["A"] "rel/.env" fsEmpty (by decide)).1⟩

/-- Counterexample to C6 as stated: `writeFileSync` applies the requested
mode only when it creates the file, so a successful `write_env` onto a
pre-existing world-readable file leaves its permission bits at `0o644` —
bit 5 (group read) is still set, against the claimed owner-only bits. -/
theorem claim_C6_counterexample :
    (writeEnvFile ([] : Store) [] "/a/.env" fsPre).1 = Except.ok ⟨true, 0, []⟩ ∧
    lookupFile (writeEnvFile ([] : Store) [] "/a/.env" fsPre).2.1 "/a/.env" =
      some ⟨"", 420⟩ ∧
    Nat.testBit 420 5 = true :=
  ⟨by decide, by decide, by decide⟩

/-- Claim C6 (amended): after every successful `write_env` the parent
directory of the path exists (created, with its ancestors, if absent) and
the file holds exactly the built content; a newly created file receives
permission bits `0o600 & ~umask`, whose group and other bits are all zero,
while a pre-existing file keeps its prior permission bits. -/
theorem claim_C6_fs_post (db : Store) (keys : List String) (p : String) (fs : FS)
    (habs : isAbsolute p = true) :
    dirname p ∈ (writeEnvFile db keys p fs).2.1.dirs ∧
    (∀ fd, lookupFile fs p = some fd →
      lookupFile (writeEnvFile db keys p fs).2.1 p = some ⟨specContent db keys, fd.mode⟩) ∧
    (lookupFile fs p = none →
      lookupFile (writeEnvFile db keys p fs).2.1 p =
        some ⟨specContent db keys, bitLdiff 384 fs.umask⟩ ∧
      ∀ i, i < 6 → (bitLdiff 384 fs.umask).testBit i = false) := by
  rcases writeEnvFile_post db keys p fs habs with ⟨_, hd, hex, hnew⟩
  exact ⟨hd, hex, fun hn => ⟨hnew hn, fun i hi => bitLdiff_mode_low fs.umask i hi⟩⟩

/-- Witness for the amended C6: writing a fresh file on an empty filesystem
creates the parent directory and a mode-`0o600` file with the built line. -/
theorem claim_C6_fs_post_witness :
    isAbsolute "/w/.env" = true ∧
    dirname "/w/.env" ∈ (writeEnvFile dbA ["A"] "/w/.env" fsEmpty).2.1.dirs ∧
    lookupFile (writeEnvFile dbA ["A"] "/w/.env" fsEmpty).2.1 "/w/.env" =
      some ⟨"A=va\n", 384⟩ := by
  refine ⟨by decide, ?_, ?_⟩
  · exact (claim_C6_fs_post dbA ["A"] "/w/.env" fsEmpty (by decide)).1
  · have h := ((claim_C6_fs_post dbA ["A"] "/w/.env" fsEmpty (by decide)).2.2 (by decide)).1
    rw [h]
    decide

/-- Claim C7: an unknown operation name is answered by an error-flagged
response rather than a crash; every failure raised inside a dispatched
operation is caught at the boundary and becomes an error-flagged text
response carrying the message; and the serving loop answers every request
of a sequence, so no dispatched failure stops it. -/
theorem claim_C7_boundary (db : Store) (fs : FS) :
    (∀ n, handleRequest db fs (ToolCall.unknown n) =
      (⟨"Error: Unknown tool: " ++ n, true⟩, fs, db)) ∧
    (∀ keys p msg fs' db', writeEnvFile db keys p fs = (Except.error msg, fs', db') →
      handleRequest db fs (ToolCall.writeEnv keys p) = (⟨"Error: " ++ msg, true⟩, fs', db')) ∧
    (∀ reqs : List ToolCall, (serve db fs reqs).length = reqs.length) := by
  refine ⟨fun n => rfl, ?_, fun reqs => serve_length reqs db fs⟩
  intro keys p msg fs' db' h
  simp [handleRequest, h]

/-- Witness for C7: a concrete unknown operation, a concrete dispatched
failure, and a two-request sequence that is fully served. -/
theorem claim_C7_boundary_witness :
    handleRequest dbA fsEmpty (ToolCall.unknown "foo") =
      (⟨"Error: Unknown tool: foo", true⟩, fsEmpty, dbA) ∧
    handleRequest dbA fsEmpty (ToolCall.writeEnv ["A"] "rel") =
      (⟨"Error: Path must be absolute", true⟩, fsEmpty, dbA) ∧
    (serve dbA fsEmpty [ToolCall.unknown "x", ToolCall.search "a"]).length = 2 := by
  refine ⟨(claim_C7_boundary dbA fsEmpty).1 "foo", ?_, (claim_C7_boundary dbA fsEmpty).2.2 _⟩
  exact (claim_C7_boundary dbA fsEmpty).2.1 ["A"] "rel" "Path must be absolute" fsEmpty dbA
    (by decide)

/-- Claim C8: neither operation modifies the secret store: both
`search_secrets` and `write_env` (successful or failed), and hence every
dispatched request, leave the store state exactly as it was. -/
theorem claim_C8_store_frame :
    (∀ (db : Store) (q : String), (searchSecrets db q).2 = db) ∧
    (∀ (db : Store) (keys : List String) (p : String) (fs : FS),
      (writeEnvFile db keys p fs).2.2 = db) ∧
    (∀ (db : Store) (fs : FS) (req : ToolCall), (handleRequest db fs req).2.2 = db) := by
  refine ⟨fun db q => rfl, fun db keys p fs => writeEnvFile_store db keys p fs, ?_⟩
  intro db fs req
  cases req with
  | search q => rfl
  | writeEnv keys p =>
    have h := writeEnvFile_store db keys p fs
    rcases hw : writeEnvFile db keys p fs with ⟨e, fs', d⟩
    rw [hw] at h
    cases e with
    | ok res => simpa [handleRequest, hw] using h
    | error msg => simpa [handleRequest, hw] using h
  | unknown n => rfl

/-- Claim C9: the query is interpolated into the LIKE pattern without
escaping, so on a store whose names and descriptions contain no `%` and no
`_`, the query `%` still matches every record and the query `_` matches
every record with at least one character, although neither is a literal
substring of any name. -/
theorem claim_C9_like_metachars :
    (∀ r ∈ dbTwo, noMeta r.name = true ∧ noMeta (r.description.getD "") = true) ∧
    (searchSecrets dbTwo "%").1 = [("alpha", some "first"), ("bx", none)] ∧
    (searchSecrets dbTwo "_").1 = [("alpha", some "first"), ("bx", none)] ∧
    hasSub (lowerL "%".data) (lowerL "alpha".data) = false ∧
    hasSub (lowerL "_".data) (lowerL "alpha".data) = false :=
  ⟨by decide, by decide, by decide, by decide, by decide⟩

/-- Counterexample to C10 as stated: the empty-keys call succeeds and
truncates, but a pre-existing file keeps its permission bits (`0o664`
here), so the result is not owner-only: bit 4 (group write) is still set. -/
theorem claim_C10_counterexample :
    (writeEnvFile ([] : Store) [] "/p/.env" fsPre2).1 = Except.ok ⟨true, 0, []⟩ ∧
    lookupFile (writeEnvFile ([] : Store) [] "/p/.env" fsPre2).2.1 "/p/.env" =
      some ⟨"", 436⟩ ∧
    Nat.testBit 436 4 = true :=
  ⟨by decide, by decide, by decide⟩

/-- Claim C10 (amended): `write_env` with an empty keys array and an
absolute path succeeds with `{success: true, written: 0, missing: []}`,
creates the parent directory if absent, and creates or truncates the file
to empty content; a newly created file receives owner-only creation bits,
while a pre-existing file keeps its prior permission bits. -/
theorem claim_C10_empty_keys (db : Store) (p : String) (fs : FS)
    (habs : isAbsolute p = true) :
    (writeEnvFile db [] p fs).1 = Except.ok ⟨true, 0, []⟩ ∧
    dirname p ∈ (writeEnvFile db [] p fs).2.1.dirs ∧
    (∀ fd, lookupFile fs p = some fd →
      lookupFile (writeEnvFile db [] p fs).2.1 p = some ⟨"", fd.mode⟩) ∧
    (lookupFile fs p = none →
      lookupFile (writeEnvFile db [] p fs).2.1 p = some ⟨"", bitLdiff 384 fs.umask⟩ ∧
      ∀ i, i < 6 → (bitLdiff 384 fs.umask).testBit i = false) := by
  rcases writeEnvFile_post db [] p fs habs with ⟨hres, hd, hex, hnew⟩
  have hcont : specContent db [] = "" := rfl
  rw [hcont] at hex hnew
  refine ⟨?_, hd, hex, fun hn => ⟨hnew hn, fun i hi => bitLdiff_mode_low fs.umask i hi⟩⟩
  simpa using hres

/-- Witness for the amended C10 at a concrete store and path. -/
theorem claim_C10_empty_keys_witness :
    isAbsolute "/w/.env" = true ∧
    (writeEnvFile dbA [] "/w/.env" fsEmpty).1 = Except.ok ⟨true, 0, []⟩ :=
  ⟨by decide, (claim_C10_empty_keys dbA "/w/.env" fsEmpty (by decide)).1⟩

end SecretMcp
